import Mathlib

/-!
Verification of `get-longhorn-backup` (`src/main.rs`): a one-shot restore
tool that fetches a JSON backup manifest from an object store, validates
the compression method, then fetches, decompresses and writes each block
at its declared offset in the destination file.

Modelling conventions:
* Strings are Lean `String`s (lists of characters).  The checksums the
  program byte-slices are hexadecimal ASCII, for which Rust byte indices
  coincide with character indices; the slice model returns `none` on the
  out-of-range panic branch.
* The object store (`Bucket::get_object`) and the LZ4 codec
  (`lz4::Decoder`) are external collaborators; they are modelled as
  function parameters `store : String → Option Bytes` (with `none` as a
  fetch failure) and `decode : Bytes → Option Bytes` (with `none` as a
  decode failure).
* The `async_stream` generator in `get_backup` is consumed linearly by
  `main`; it is modelled as a recursive function returning the trace of
  fetch calls, the yielded `(offset, bytes)` pairs, and the error (if
  any) that terminated the stream.
-/

/-- Bytes are natural numbers; a byte string is a list of bytes. -/
abbrev Bytes := List Nat

/-- Manifest entry, from `struct BackupBlock`: an absolute destination
offset and the hex checksum that addresses the stored object. -/
structure BackupBlock where
  Offset : Nat
  BlockChecksum : String
  deriving Repr, DecidableEq

/-- Parsed manifest, from `struct BackupCfg`: the codec name and the
ordered block list. -/
structure BackupCfg where
  CompressionMethod : String
  Blocks : List BackupBlock
  deriving Repr, DecidableEq

/-- Rust byte slice `&s[a..b]`: `none` models the out-of-range panic
branch (for ASCII content, byte and character indices coincide). -/
def rustSlice (s : String) (a b : Nat) : Option String :=
  if a ≤ b ∧ b ≤ s.data.length then some ⟨(s.data.drop a).take (b - a)⟩ else none

/-- Object path of one block, from the line
`format!(".../blocks/...", basename, &cs[0..2], &cs[2..4], &cs)` of
`get_backup`: basename, the literal `blocks`, the two two-character
shards of the checksum, then the full checksum with a `.blk` suffix. -/
def blockname (basename cs : String) : Option String :=
  match rustSlice cs 0 2, rustSlice cs 2 4 with
  | some s1, some s2 =>
      some (basename ++ "/blocks/" ++ s1 ++ "/" ++ s2 ++ "/" ++ cs ++ ".blk")
  | _, _ => none

/-- Characters that are hexadecimal (ASCII) digits, the content of a
`BlockChecksum`. -/
def isHexDigitChar (c : Char) : Bool :=
  (decide ('0' ≤ c) && decide (c ≤ '9')) ||
  (decide ('a' ≤ c) && decide (c ≤ 'f')) ||
  (decide ('A' ≤ c) && decide (c ≤ 'F'))

/-- Positions (character indices, in increasing order) of `'/'` in a
character list. -/
def slashPositions : List Char → List Nat
  | [] => []
  | c :: rest =>
      (if c = '/' then [0] else []) ++ (slashPositions rest).map (· + 1)

/-- Root-path derivation from `main`:
`backup_name.rmatch_indices('/').nth(1)` walks the slash positions from
the end and takes the second one; the basename is the prefix strictly
before it.  `none` models the `exit(1)` branch. -/
def derive_basename (name : String) : Option String :=
  match (slashPositions name.data).reverse[1]? with
  | some i => some ⟨name.data.take i⟩
  | none => none

lemma blockname_of_length (basename cs : String) (h : 4 ≤ cs.data.length) :
    blockname basename cs =
      some (basename ++ "/blocks/" ++ ⟨cs.data.take 2⟩ ++ "/" ++
            ⟨(cs.data.drop 2).take 2⟩ ++ "/" ++ cs ++ ".blk") := by
  unfold blockname rustSlice
  rw [if_pos ⟨Nat.zero_le 2, by omega⟩, if_pos ⟨by omega, h⟩]
  simp

/-- C3: for every basename and every checksum of length at least 4, the
computed object path is the basename, then `/blocks/`, then the first
two checksum characters, a slash, the next two checksum characters, a
slash, and the full checksum followed by `.blk`. -/
theorem C3_blockname_formula (basename cs : String) (h : 4 ≤ cs.data.length) :
    blockname basename cs =
      some (basename ++ "/blocks/" ++ ⟨cs.data.take 2⟩ ++ "/" ++
            ⟨(cs.data.drop 2).take 2⟩ ++ "/" ++ cs ++ ".blk") :=
  blockname_of_length basename cs h

/-- Witness for C3: checksum `abcd1234` under basename `backups/host1`
yields exactly the path from the spec. -/
theorem C3_blockname_formula_witness :
    blockname "backups/host1" "abcd1234" =
      some "backups/host1/blocks/ab/cd/abcd1234.blk" :=
  (C3_blockname_formula "backups/host1" "abcd1234" (by decide)).trans (by decide)

/-- C9: under the invariant that the checksum is at least four
hexadecimal ASCII characters, path computation is total: the slicing is
in bounds and the panic branch is unreachable. -/
theorem C9_blockname_total (basename cs : String)
    (hhex : ∀ c ∈ cs.data, isHexDigitChar c = true)
    (hlen : 4 ≤ cs.data.length) :
    ∃ p, blockname basename cs = some p :=
  ⟨_, blockname_of_length basename cs hlen⟩

/-- Witness for C9: the hypotheses hold of checksum `abcd1234` and the
path computation succeeds there. -/
theorem C9_blockname_total_witness :
    ∃ p, blockname "backups/host1" "abcd1234" = some p :=
  C9_blockname_total "backups/host1" "abcd1234" (by decide) (by decide)

lemma slashPositions_length (l : List Char) :
    (slashPositions l).length = l.count '/' := by
  induction l with
  | nil => rfl
  | cons c t ih =>
    by_cases h : c = '/' <;>
      simp [slashPositions, h, List.count_cons, ih]

lemma slashPositions_reverse_getElem (l : List Char) :
    ∀ k i, (slashPositions l).reverse[k]? = some i →
      l[i]? = some '/' ∧ (l.drop (i + 1)).count '/' = k := by
  induction l with
  | nil => intro k i h; simp [slashPositions] at h
  | cons c t ih =>
    intro k i h
    by_cases hc : c = '/'
    · rw [slashPositions, if_pos hc, List.reverse_append, ← List.map_reverse] at h
      by_cases hk : k < ((slashPositions t).reverse.map (· + 1)).length
      · rw [List.getElem?_append_left hk, List.getElem?_map] at h
        obtain ⟨j, hj, hij⟩ := Option.map_eq_some'.mp h
        obtain ⟨hsl, hcnt⟩ := ih k j hj
        subst hij
        refine ⟨by simpa using hsl, ?_⟩
        simpa using hcnt
      · rw [List.getElem?_append_right (Nat.le_of_not_lt hk)] at h
        simp only [List.length_map, List.length_reverse] at hk
        rcases Nat.lt_or_ge (k - (slashPositions t).length) 1 with hlt | hge
        · have hk0 : k = (slashPositions t).length := by
            simp only [List.length_map, List.length_reverse] at h ⊢
            omega
          have : i = 0 := by
            simp only [List.length_map, List.length_reverse] at h
            rw [List.reverse_singleton] at h
            simp [hk0] at h
            omega
          subst this
          refine ⟨by simp [hc], ?_⟩
          simp only [List.drop_succ_cons, List.drop_zero]
          rw [← slashPositions_length]
          exact hk0.symm
        · exfalso
          rw [List.reverse_singleton, List.getElem?_eq_none] at h
          · exact Option.noConfusion h
          · simpa using hge
    · rw [slashPositions, if_neg hc, List.nil_append, ← List.map_reverse] at h
      rw [List.getElem?_map] at h
      obtain ⟨j, hj, hij⟩ := Option.map_eq_some'.mp h
      obtain ⟨hsl, hcnt⟩ := ih k j hj
      subst hij
      refine ⟨by simpa using hsl, ?_⟩
      simpa using hcnt

/-- C4: root-path derivation is a pure string function.  For every
manifest path with at least two slashes the result is the prefix
strictly before the second-from-last slash (the remaining suffix holds
exactly one more slash); for fewer than two slashes derivation fails. -/
theorem C4_derive_basename (name : String) :
    (2 ≤ name.data.count '/' →
      ∃ pre rest, name.data = pre ++ '/' :: rest ∧ rest.count '/' = 1 ∧
        derive_basename name = some ⟨pre⟩) ∧
    (name.data.count '/' < 2 → derive_basename name = none) := by
  constructor
  · intro h2
    obtain ⟨i, hi⟩ : ∃ i, (slashPositions name.data).reverse[1]? = some i := by
      have hlen : 1 < (slashPositions name.data).reverse.length := by
        rw [List.length_reverse, slashPositions_length]; omega
      exact ⟨_, List.getElem?_eq_getElem hlen⟩
    obtain ⟨hslash, hcount⟩ := slashPositions_reverse_getElem name.data 1 i hi
    obtain ⟨hilt, hget⟩ := List.getElem?_eq_some_iff.mp hslash
    refine ⟨name.data.take i, name.data.drop (i + 1), ?_, hcount, ?_⟩
    · conv_lhs => rw [← List.take_append_drop i name.data]
      rw [List.drop_eq_getElem_cons hilt, hget]
    · unfold derive_basename
      rw [hi]
  · intro h2
    have hnone : (slashPositions name.data).reverse[1]? = none := by
      apply List.getElem?_eq_none
      rw [List.length_reverse, slashPositions_length]; omega
    unfold derive_basename
    rw [hnone]

/-- Witness for C4: the spec example path yields `backups/host1`, and a
path with fewer than two slashes fails. -/
theorem C4_derive_basename_witness :
    (∃ pre rest,
        ("backups/host1/2023-01-01/index.json" : String).data = pre ++ '/' :: rest ∧
        rest.count '/' = 1 ∧
        derive_basename "backups/host1/2023-01-01/index.json" = some ⟨pre⟩) ∧
    derive_basename "index.json" = none ∧
    derive_basename "backups/host1/2023-01-01/index.json" = some "backups/host1" :=
  ⟨(C4_derive_basename "backups/host1/2023-01-01/index.json").1 (by decide),
   (C4_derive_basename "index.json").2 (by decide),
   by decide⟩

/-- Fields of the declared (but, as proved below, never raised) error
type `SkippedData`: the offset the cursor expected and the offset the
next descriptor declared. -/
structure SkippedData where
  expected_offset : Nat
  found_offset : Nat
  deriving Repr, DecidableEq

/-- Failure that can end the restore stream or the run: a checksum
slice out of range (Rust panic), an object fetch failure, an LZ4 decode
failure, or the gap condition declared by `SkippedData`. -/
inductive EngErr where
  | sliceOutOfRange
  | remote
  | decodeErr
  | skipped (s : SkippedData)
  deriving Repr, DecidableEq

/-- One complete consumption of the stream built by `get_backup`: the
object paths fetched (in order), the `(Offset, decompressed bytes)`
pairs yielded (in order), and the error that ended the stream, if any. -/
structure EngineRun where
  fetches : List String
  yielded : List (Nat × Bytes)
  error : Option EngErr
  deriving Repr, DecidableEq

/-- The stream body of `get_backup`: for each block in manifest order,
compute the object path, fetch the object, decode it, and yield the
pair; the first failure ends the stream. -/
def get_backup (store : String → Option Bytes) (decode : Bytes → Option Bytes)
    (basename : String) : List BackupBlock → EngineRun
  | [] => ⟨[], [], none⟩
  | b :: rest =>
    match blockname basename b.BlockChecksum with
    | none => ⟨[], [], some .sliceOutOfRange⟩
    | some path =>
      match store path with
      | none => ⟨[path], [], some .remote⟩
      | some contents =>
        match decode contents with
        | none => ⟨[path], [], some .decodeErr⟩
        | some out =>
          let r := get_backup store decode basename rest
          ⟨path :: r.fetches, (b.Offset, out) :: r.yielded, r.error⟩

/-- Destination file contents: `none` at positions never written. -/
def FileState := Nat → Option Nat

/-- A fresh file from `File::create` (create-or-truncate semantics): no
byte has been written yet. -/
def emptyFile : FileState := fun _ => none

/-- One `seek(SeekFrom::Start(offset))` plus `write_all(chunk)` step of
the writer loop in `main`. -/
def writeChunk (f : FileState) (offset : Nat) (chunk : Bytes) : FileState :=
  fun i => if offset ≤ i ∧ i < offset + chunk.length then chunk[i - offset]? else f i

/-- The writer loop of `main`: consume the yielded pairs in order,
writing each chunk at its declared offset. -/
def writeAll (f : FileState) : List (Nat × Bytes) → FileState
  | [] => f
  | (o, c) :: rest => writeAll (writeChunk f o c) rest

/-- Outcome of `main` after the manifest has been fetched and parsed:
the codec check can reject the manifest before the destination file is
even created; otherwise the stream is drained into the file, completing
or aborting on the stream's first error. -/
inductive RestoreResult where
  | rejectedCodec
  | aborted (fetches : List String) (file : FileState) (e : EngErr)
  | completed (fetches : List String) (file : FileState)

/-- The restore phase of `main` after the manifest fetch and JSON parse:
check `CompressionMethod == "lz4"`, create (truncate) the destination
file, then drain `get_backup`, writing each yielded pair at its offset;
the stream's first error aborts the run with the prefix already
written. -/
def restore (store : String → Option Bytes) (decode : Bytes → Option Bytes)
    (basename : String) (cfg : BackupCfg) : RestoreResult :=
  if cfg.CompressionMethod = "lz4" then
    let r := get_backup store decode basename cfg.Blocks
    let f := writeAll emptyFile r.yielded
    match r.error with
    | none => .completed r.fetches f
    | some e => .aborted r.fetches f e
  else .rejectedCodec

/-- Block-object fetches a restore issued (none when the manifest was
rejected before the engine ran). -/
def RestoreResult.blockFetches : RestoreResult → List String
  | .rejectedCodec => []
  | .aborted fs _ _ => fs
  | .completed fs _ => fs

/-- Counterexample for C1: three blocks whose decompressed lengths are
100, 100, 100 give expected offsets 0, 100, 200, yet with the third
descriptor declaring offset 250 the engine finishes with no error at
all and yields all three blocks - no SkippedData (expected 200, found
250) is ever surfaced. -/
theorem C1_counterexample :
    (get_backup (fun _ => some []) (fun _ => some (List.replicate 100 0)) "base"
        [⟨0, "aaaa"⟩, ⟨100, "bbbb"⟩, ⟨250, "cccc"⟩]).error = none ∧
    (get_backup (fun _ => some []) (fun _ => some (List.replicate 100 0)) "base"
        [⟨0, "aaaa"⟩, ⟨100, "bbbb"⟩, ⟨250, "cccc"⟩]).yielded.length = 3 := by
  exact ⟨rfl, rfl⟩

/-- C1 (amended): `SkippedData` is declared with both an expected and a
found offset, but the stream engine never raises it: whatever the
store, decoder, basename and block list - in particular one whose
declared offsets diverge from the cumulated decompressed lengths -
every error the engine surfaces is a slice panic, a remote fetch
failure or a decode failure, never the gap condition. -/
theorem C1_skipped_never_surfaced (store : String → Option Bytes)
    (decode : Bytes → Option Bytes) (basename : String)
    (blocks : List BackupBlock) (e : EngErr)
    (h : (get_backup store decode basename blocks).error = some e) :
    e = .sliceOutOfRange ∨ e = .remote ∨ e = .decodeErr := by
  induction blocks with
  | nil => simp [get_backup] at h
  | cons b rest ih =>
    unfold get_backup at h
    split at h
    · simp at h
      simp [← h]
    · split at h
      · simp at h
        simp [← h]
      · split at h
        · simp at h
          simp [← h]
        · exact ih (by simpa using h)

/-- Witness for C1 (amended): an engine run whose only failure is the
missing remote object reports the remote error kind. -/
theorem C1_skipped_never_surfaced_witness :
    (get_backup (fun _ => none) (fun c => some c) "b"
        [⟨0, "aaaa"⟩]).error = some EngErr.remote ∧
    (EngErr.remote = EngErr.sliceOutOfRange ∨ EngErr.remote = EngErr.remote ∨
      EngErr.remote = EngErr.decodeErr) :=
  ⟨rfl, C1_skipped_never_surfaced (fun _ => none) (fun c => some c) "b"
    [⟨0, "aaaa"⟩] EngErr.remote rfl⟩

/-- C6: a manifest whose compression method is anything other than
`lz4` is rejected before the engine runs, so no block object is ever
requested. -/
theorem C6_codec_rejected (store : String → Option Bytes)
    (decode : Bytes → Option Bytes) (basename : String) (cfg : BackupCfg)
    (h : cfg.CompressionMethod ≠ "lz4") :
    restore store decode basename cfg = .rejectedCodec ∧
    (restore store decode basename cfg).blockFetches = [] := by
  unfold restore
  rw [if_neg h]
  exact ⟨rfl, rfl⟩

/-- Witness for C6: a `gzip` manifest is rejected with no block fetch. -/
theorem C6_codec_rejected_witness :
    restore (fun _ => some []) (fun c => some c) "b" ⟨"gzip", [⟨0, "aaaa"⟩]⟩ =
      .rejectedCodec ∧
    (restore (fun _ => some []) (fun c => some c) "b"
        ⟨"gzip", [⟨0, "aaaa"⟩]⟩).blockFetches = [] :=
  C6_codec_rejected (fun _ => some []) (fun c => some c) "b"
    ⟨"gzip", [⟨0, "aaaa"⟩]⟩ (by decide)

/-- C10: an `lz4` manifest with an empty block list is not rejected: the
run completes with no block fetch and the destination file is created
and left at zero length. -/
theorem C10_empty_manifest (store : String → Option Bytes)
    (decode : Bytes → Option Bytes) (basename : String) (cfg : BackupCfg)
    (hm : cfg.CompressionMethod = "lz4") (hb : cfg.Blocks = []) :
    restore store decode basename cfg = .completed [] emptyFile := by
  unfold restore
  rw [if_pos hm, hb]
  rfl

/-- Witness for C10: the empty `lz4` manifest completes with no fetches
and an all-empty file. -/
theorem C10_empty_manifest_witness :
    restore (fun _ => some []) (fun c => some c) "b" ⟨"lz4", []⟩ =
      .completed [] emptyFile :=
  C10_empty_manifest (fun _ => some []) (fun c => some c) "b" ⟨"lz4", []⟩ rfl rfl

/-- The pair the engine should yield for one descriptor: its offset
together with the bytes obtained by fetching its computed path and
decoding them. -/
def blockPair (store : String → Option Bytes) (decode : Bytes → Option Bytes)
    (basename : String) (b : BackupBlock) : Option (Nat × Bytes) :=
  (blockname basename b.BlockChecksum).bind fun p =>
    (store p).bind fun c => (decode c).map fun out => (b.Offset, out)

lemma get_backup_fetches_ordered (store : String → Option Bytes)
    (decode : Bytes → Option Bytes) (basename : String)
    (blocks : List BackupBlock) :
    (get_backup store decode basename blocks).fetches.map some <+:
      blocks.map fun b => blockname basename b.BlockChecksum := by
  induction blocks with
  | nil => simp [get_backup]
  | cons b rest ih =>
    unfold get_backup
    cases hbn : blockname basename b.BlockChecksum with
    | none => simp
    | some path =>
      cases hs : store path with
      | none =>
        simp only [hs, List.map_cons, List.map_nil, hbn]
        exact ⟨_, rfl⟩
      | some contents =>
        cases hd : decode contents with
        | none =>
          simp only [hs, hd, List.map_cons, List.map_nil, hbn]
          exact ⟨_, rfl⟩
        | some out =>
          simp only [hs, hd, List.map_cons, hbn]
          exact List.cons_prefix_cons.mpr ⟨rfl, ih⟩

lemma get_backup_success_spec (store : String → Option Bytes)
    (decode : Bytes → Option Bytes) (basename : String)
    (blocks : List BackupBlock)
    (h : (get_backup store decode basename blocks).error = none) :
    (get_backup store decode basename blocks).fetches.map some =
      (blocks.map fun b => blockname basename b.BlockChecksum) ∧
    (get_backup store decode basename blocks).yielded.map some =
      blocks.map (blockPair store decode basename) := by
  induction blocks with
  | nil => simp [get_backup]
  | cons b rest ih =>
    unfold get_backup at h ⊢
    cases hbn : blockname basename b.BlockChecksum with
    | none => rw [hbn] at h; simp at h
    | some path =>
      rw [hbn] at h
      dsimp only at h ⊢
      cases hs : store path with
      | none => rw [hs] at h; simp at h
      | some contents =>
        rw [hs] at h
        dsimp only at h ⊢
        cases hd : decode contents with
        | none => rw [hd] at h; simp at h
        | some out =>
          rw [hd] at h
          dsimp only at h ⊢
          obtain ⟨h1, h2⟩ := ih h
          refine ⟨?_, ?_⟩
          · simp [h1, hbn]
          · simp [h2, blockPair, hbn, hs, hd]

/-- C5: the engine fetches strictly in manifest order with no
fetch-ahead and no reordering: the fetch trace is always a prefix of
the descriptors' computed paths in list order, and on a fully
successful run it equals that path list, while the i-th yielded pair is
the i-th descriptor's offset paired with its fetched-and-decoded
bytes. -/
theorem C5_fetch_order (store : String → Option Bytes)
    (decode : Bytes → Option Bytes) (basename : String)
    (blocks : List BackupBlock) :
    ((get_backup store decode basename blocks).fetches.map some <+:
      blocks.map fun b => blockname basename b.BlockChecksum) ∧
    ((get_backup store decode basename blocks).error = none →
      (get_backup store decode basename blocks).fetches.map some =
        (blocks.map fun b => blockname basename b.BlockChecksum) ∧
      (get_backup store decode basename blocks).yielded.map some =
        blocks.map (blockPair store decode basename)) :=
  ⟨get_backup_fetches_ordered store decode basename blocks,
   fun h => get_backup_success_spec store decode basename blocks h⟩

/-- Witness for C5: a successful two-block run fetches exactly the two
computed paths in order and yields the two descriptor pairs in order. -/
theorem C5_fetch_order_witness :
    (get_backup (fun _ => some [5]) (fun c => some c) "b"
        [⟨0, "aaaa"⟩, ⟨1, "bbbb"⟩]).fetches.map some =
      ([⟨0, "aaaa"⟩, ⟨1, "bbbb"⟩].map
        fun b : BackupBlock => blockname "b" b.BlockChecksum) ∧
    (get_backup (fun _ => some [5]) (fun c => some c) "b"
        [⟨0, "aaaa"⟩, ⟨1, "bbbb"⟩]).yielded.map some =
      [⟨0, "aaaa"⟩, ⟨1, "bbbb"⟩].map
        (blockPair (fun _ => some [5]) (fun c => some c) "b") :=
  (C5_fetch_order (fun _ => some [5]) (fun c => some c) "b"
    [⟨0, "aaaa"⟩, ⟨1, "bbbb"⟩]).2 rfl

/-- C7: with three blocks where the first fetch and decode succeed and
the second fetch fails, the run aborts with the remote error after
exactly the first two fetches - the third block is never requested -
and the first block's decompressed bytes are already in the destination
file at its declared offset. -/
theorem C7_second_fetch_fails (store : String → Option Bytes)
    (decode : Bytes → Option Bytes) (basename : String)
    (b1 b2 b3 : BackupBlock) (p1 p2 : String) (c1 out1 : Bytes)
    (h1p : blockname basename b1.BlockChecksum = some p1)
    (h1s : store p1 = some c1) (h1d : decode c1 = some out1)
    (h2p : blockname basename b2.BlockChecksum = some p2)
    (h2s : store p2 = none) :
    restore store decode basename ⟨"lz4", [b1, b2, b3]⟩ =
      .aborted [p1, p2] (writeChunk emptyFile b1.Offset out1) .remote ∧
    ∀ i, i < out1.length →
      writeChunk emptyFile b1.Offset out1 (b1.Offset + i) = out1[i]? := by
  constructor
  · unfold restore
    rw [if_pos rfl]
    simp only [get_backup, h1p, h1s, h1d, h2p, h2s]
    rfl
  · intro i hi
    unfold writeChunk
    rw [if_pos ⟨Nat.le_add_right _ _, by omega⟩, Nat.add_sub_cancel_left]

/-- Witness for C7: a concrete store that has the first block but not
the second leaves the first chunk written, reports the remote failure,
and shows exactly two fetches. -/
theorem C7_second_fetch_fails_witness :
    restore (fun p => if p = "b/blocks/aa/aa/aaaa.blk" then some [9] else none)
        (fun c => some c) "b" ⟨"lz4", [⟨0, "aaaa"⟩, ⟨2, "bbbb"⟩, ⟨4, "cccc"⟩]⟩ =
      .aborted ["b/blocks/aa/aa/aaaa.blk", "b/blocks/bb/bb/bbbb.blk"]
        (writeChunk emptyFile 0 [9]) .remote :=
  (C7_second_fetch_fails
    (fun p => if p = "b/blocks/aa/aa/aaaa.blk" then some [9] else none)
    (fun c => some c) "b" ⟨0, "aaaa"⟩ ⟨2, "bbbb"⟩ ⟨4, "cccc"⟩
    "b/blocks/aa/aa/aaaa.blk" "b/blocks/bb/bb/bbbb.blk" [9] [9]
    (by decide) (by decide) rfl (by decide) (by decide)).1

/-- Specification-side description of byte `i` after the writer ran:
the corresponding byte of the last yielded pair whose range covers `i`,
if any pair covers it. -/
def lastCovering (pairs : List (Nat × Bytes)) (i : Nat) : Option Nat :=
  (pairs.reverse.find? fun p => decide (p.1 ≤ i ∧ i < p.1 + p.2.length)).bind
    fun p => p.2[i - p.1]?

lemma writeAll_apply (pairs : List (Nat × Bytes)) (f : FileState) (i : Nat) :
    writeAll f pairs i = (lastCovering pairs i).or (f i) := by
  induction pairs generalizing f with
  | nil => simp [writeAll, lastCovering]
  | cons p rest ih =>
    obtain ⟨o, ck⟩ := p
    rw [writeAll, ih]
    unfold lastCovering
    rw [List.reverse_cons, List.find?_append]
    cases hf : rest.reverse.find?
        (fun p => decide (p.1 ≤ i ∧ i < p.1 + p.2.length)) with
    | some q =>
      have hq := List.find?_some hf
      rw [decide_eq_true_eq] at hq
      obtain ⟨v, hg⟩ : ∃ v, q.2[i - q.1]? = some v :=
        ⟨_, List.getElem?_eq_getElem (by omega)⟩
      simp [hg]
    | none =>
      simp only [Option.none_or]
      by_cases hP : o ≤ i ∧ i < o + ck.length
      · obtain ⟨v, hg⟩ : ∃ v, ck[i - o]? = some v :=
          ⟨_, List.getElem?_eq_getElem (by omega)⟩
        simp [List.find?_cons, writeChunk, hP, hg]
      · simp [List.find?_cons, writeChunk, hP]

/-- C8: writer frame condition.  After a successful restore, byte `i`
of the destination file is exactly the corresponding byte of the last
yielded chunk whose range covers `i` - so later writes prevail where
ranges overlap and positions outside every range are never written -
and the yielded chunks are exactly the descriptors' decoded contents in
manifest order. -/
theorem C8_writer_frame (store : String → Option Bytes)
    (decode : Bytes → Option Bytes) (basename : String) (cfg : BackupCfg)
    (fetches : List String) (file : FileState)
    (h : restore store decode basename cfg = .completed fetches file) :
    ∃ pairs : List (Nat × Bytes),
      pairs.map some = cfg.Blocks.map (blockPair store decode basename) ∧
      ∀ i, file i = lastCovering pairs i := by
  unfold restore at h
  by_cases hm : cfg.CompressionMethod = "lz4"
  · rw [if_pos hm] at h
    dsimp only at h
    cases herr : (get_backup store decode basename cfg.Blocks).error with
    | none =>
      rw [herr] at h
      dsimp only at h
      injection h with hfet hfile
      refine ⟨(get_backup store decode basename cfg.Blocks).yielded,
        (get_backup_success_spec store decode basename cfg.Blocks herr).2, ?_⟩
      intro i
      rw [← hfile, writeAll_apply]
      simp [emptyFile]
    | some e =>
      rw [herr] at h
      dsimp only at h
      exact absurd h (by simp)
  · rw [if_neg hm] at h
    exact absurd h (by simp)

/-- Witness for C8: a one-block restore completes and its file is
described by `lastCovering` of the single decoded pair. -/
theorem C8_writer_frame_witness :
    ∃ pairs : List (Nat × Bytes),
      pairs.map some =
        [(⟨0, "aaaa"⟩ : BackupBlock)].map
          (blockPair (fun _ => some [7]) (fun c => some c) "b") ∧
      ∀ i, writeAll emptyFile [(0, [7])] i = lastCovering pairs i :=
  C8_writer_frame (fun _ => some [7]) (fun c => some c) "b" ⟨"lz4", [⟨0, "aaaa"⟩]⟩
    ["b/blocks/aa/aa/aaaa.blk"] (writeAll emptyFile [(0, [7])]) rfl

/-- Offsets that are the cumulated decompressed lengths of the payloads
preceding each block, starting from `acc` (the manifest layout of a
gap-free backup). -/
def cumOffsets (acc : Nat) : List Bytes → List Nat
  | [] => []
  | p :: rest => acc :: cumOffsets (acc + p.length) rest

lemma get_backup_roundtrip (store : String → Option Bytes)
    (decode : Bytes → Option Bytes) (basename : String)
    (compress : Bytes → Bytes) :
    ∀ (ps : List Bytes) (css : List String) (acc : Nat),
      css.length = ps.length →
      (∀ pr ∈ css.zip ps, ∃ path, blockname basename pr.1 = some path ∧
        store path = some (compress pr.2)) →
      (∀ p ∈ ps, decode (compress p) = some p) →
      (get_backup store decode basename
        (List.zipWith (fun o cs => BackupBlock.mk o cs) (cumOffsets acc ps) css)).error =
          none ∧
      (get_backup store decode basename
        (List.zipWith (fun o cs => BackupBlock.mk o cs) (cumOffsets acc ps) css)).yielded =
          (cumOffsets acc ps).zip ps := by
  intro ps
  induction ps with
  | nil =>
    intro css acc hlen hstore hdec
    simp [cumOffsets, get_backup]
  | cons p rest ih =>
    intro css acc hlen hstore hdec
    cases css with
    | nil => simp at hlen
    | cons cs css' =>
      obtain ⟨path, hbn, hs⟩ := hstore (cs, p) (by simp)
      have hd : decode (compress p) = some p := hdec p (by simp)
      obtain ⟨he, hy⟩ := ih css' (acc + p.length) (by simpa using hlen)
        (fun pr hpr => hstore pr (by simp [hpr]))
        (fun q hq => hdec q (by simp [hq]))
      simp only [cumOffsets, List.zipWith_cons_cons, List.zip_cons_cons]
      unfold get_backup
      dsimp only
      rw [hbn]
      dsimp only
      rw [hs]
      dsimp only
      rw [hd]
      dsimp only
      exact ⟨he, by rw [hy]⟩

lemma writeAll_contiguous (ps : List Bytes) :
    ∀ (acc : Nat) (f : FileState) (i : Nat),
      writeAll f ((cumOffsets acc ps).zip ps) i =
        if acc ≤ i ∧ i < acc + ps.flatten.length then ps.flatten[i - acc]?
        else f i := by
  induction ps with
  | nil =>
    intro acc f i
    rw [cumOffsets]
    simp only [List.zip_nil_right, writeAll, List.flatten_nil, List.length_nil]
    rw [if_neg (by omega)]
  | cons p rest ih =>
    intro acc f i
    rw [cumOffsets]
    simp only [List.zip_cons_cons, writeAll, List.flatten_cons, List.length_append]
    rw [show List.zipWith Prod.mk (cumOffsets (acc + p.length) rest) rest =
      (cumOffsets (acc + p.length) rest).zip rest from rfl, ih]
    rcases Nat.lt_or_ge i acc with hlow | hge
    · rw [if_neg (by omega), if_neg (by omega)]
      unfold writeChunk
      rw [if_neg (by omega)]
    · rcases Nat.lt_or_ge i (acc + p.length) with hmid | hhigh
      · rw [if_neg (by omega), if_pos ⟨hge, by omega⟩]
        unfold writeChunk
        rw [if_pos ⟨hge, hmid⟩]
        rw [List.getElem?_append_left (by omega)]
      · rcases Nat.lt_or_ge i (acc + p.length + rest.flatten.length) with hin | hout
        · rw [if_pos ⟨hhigh, hin⟩, if_pos ⟨by omega, by omega⟩]
          rw [List.getElem?_append_right (by omega)]
          congr 1
          omega
        · rw [if_neg (by omega), if_neg (by omega)]
          unfold writeChunk
          rw [if_neg (by omega)]

/-- C2: round-trip.  For every sequence of payloads compressed with the
codec, stored at the addresses computed from their checksums, and
described by a manifest whose offsets are the cumulative decompressed
lengths (first offset 0), the restore completes and the destination
file is byte-identical to the concatenation of the payloads. -/
theorem C2_roundtrip (store : String → Option Bytes)
    (decode : Bytes → Option Bytes) (basename : String)
    (compress : Bytes → Bytes) (ps : List Bytes) (css : List String)
    (hlen : css.length = ps.length)
    (hstore : ∀ pr ∈ css.zip ps, ∃ path, blockname basename pr.1 = some path ∧
      store path = some (compress pr.2))
    (hdec : ∀ p ∈ ps, decode (compress p) = some p) :
    ∃ fetches file,
      restore store decode basename
        ⟨"lz4", List.zipWith (fun o cs => BackupBlock.mk o cs) (cumOffsets 0 ps) css⟩ =
        .completed fetches file ∧
      ∀ i, file i = ps.flatten[i]? := by
  obtain ⟨he, hy⟩ :=
    get_backup_roundtrip store decode basename compress ps css 0 hlen hstore hdec
  refine ⟨(get_backup store decode basename
      (List.zipWith (fun o cs => BackupBlock.mk o cs) (cumOffsets 0 ps) css)).fetches,
    writeAll emptyFile ((cumOffsets 0 ps).zip ps), ?_, ?_⟩
  · unfold restore
    rw [if_pos rfl]
    dsimp only
    rw [he, hy]
  · intro i
    rw [writeAll_contiguous]
    rcases Nat.lt_or_ge i ps.flatten.length with hin | hout
    · rw [if_pos ⟨Nat.zero_le i, by omega⟩]
      congr 1
    · rw [if_neg (by omega)]
      exact (List.getElem?_eq_none hout).symm

/-- Witness for C2: payloads `[1, 2]` and `[3]` under checksums `aaaa`
and `bbbb` with an identity codec restore to the concatenation
`[1, 2, 3]`. -/
theorem C2_roundtrip_witness :
    ∃ fetches file,
      restore
        (fun path => if path = "b/blocks/aa/aa/aaaa.blk" then some [1, 2]
          else if path = "b/blocks/bb/bb/bbbb.blk" then some [3] else none)
        (fun c => some c) "b"
        ⟨"lz4", List.zipWith (fun o cs => BackupBlock.mk o cs)
          (cumOffsets 0 [[1, 2], [3]]) ["aaaa", "bbbb"]⟩ =
        .completed fetches file ∧
      ∀ i, file i = ([[1, 2], [3]] : List Bytes).flatten[i]? :=
  C2_roundtrip
    (fun path => if path = "b/blocks/aa/aa/aaaa.blk" then some [1, 2]
      else if path = "b/blocks/bb/bb/bbbb.blk" then some [3] else none)
    (fun c => some c) "b" (fun p => p) [[1, 2], [3]] ["aaaa", "bbbb"] rfl
    (by
      intro pr hpr
      simp only [List.zip_cons_cons, List.zip_nil_right, List.mem_cons,
        List.not_mem_nil, or_false] at hpr
      rcases hpr with h | h <;> subst h
      · exact ⟨"b/blocks/aa/aa/aaaa.blk", by decide, by decide⟩
      · exact ⟨"b/blocks/bb/bb/bbbb.blk", by decide, by decide⟩)
    (fun p _ => rfl)
